import Mathlib

/-!
# Byte ranges (`pkg/utils/byterange.go`)

A shallow embedding of the three functions of `byterange.go`
(`CreateByteRange`, `ByteRange.ToHeaderValue`, `ByteRange.Apply`) together
with the pieces of the Go standard library they call (`strings.TrimPrefix`,
`strings.Split`, `strconv.ParseInt`, `strconv.FormatInt`) and the Go slice
expression `a[lo:hi]`.

Conventions of the embedding.

* A Go `string` and a Go `[]byte` are sequences of bytes: `List Nat`.  A byte
  is written as a natural number (a Go byte is below 256; no definition here
  depends on that bound, so every statement over all lists covers every Go
  string).
* `int64` and `int` (64 bits wide) values are integers; every operation that
  can leave the range is followed by an explicit wrap (`wrapInt64`), and
  `uint64` arithmetic is taken modulo `2 ^ 64`.
* A run-time panic (slice bounds out of range) is the result `none`.
-/

namespace ByteRangeGo

/-- A Go string: its bytes in order, each byte a natural number. -/
abbrev GoString := List Nat

/-- The bytes of an ASCII literal of the source, such as `"bytes="`. -/
def lit (s : String) : GoString := s.toList.map Char.toNat

/-! ## Machine integers -/

/-- The value of a mathematical integer after conversion to `int64`
(two's complement wrap-around). -/
def wrapInt64 (x : Int) : Int := (x + 2 ^ 63) % 2 ^ 64 - 2 ^ 63

/-- The integer lies in the range of `int64`. -/
def InInt64 (x : Int) : Prop := -(2 ^ 63) ≤ x ∧ x < 2 ^ 63

instance (x : Int) : Decidable (InInt64 x) := by unfold InInt64; infer_instance

/-- The largest `uint64`. -/
def maxUint64 : Nat := 2 ^ 64 - 1

/-! ## `strings` -/

/-- Go `strings.HasPrefix`: `len(s) >= len(prefix) && s[:len(prefix)] == prefix`. -/
def HasPrefix (s pre : GoString) : Bool :=
  decide (s.length ≥ pre.length) && decide (s.take pre.length = pre)

/-- Go `strings.TrimPrefix`: `s` without the leading `prefix`, or `s` itself
when it does not start with `prefix`. -/
def TrimPrefix (s pre : GoString) : GoString :=
  if HasPrefix s pre then s.drop pre.length else s

/-- Go `strings.IndexByte`: index of the first `c` in `s`, or `-1`. -/
def IndexByte : GoString → Nat → Int
  | [], _ => -1
  | x :: xs, c =>
    if x = c then 0
    else
      let i := IndexByte xs c
      if i < 0 then -1 else i + 1

/-- Go `strings.Count` for a one-byte separator: the number of occurrences. -/
def Count (s : GoString) (sep : Nat) : Nat := s.count sep

/-- The loop of Go `strings.genSplit` (with `sepSave = 0` and a one-byte
separator): `k` is the number of cuts still allowed (`n - 1 - i`).
```go
for i < n {
    m := Index(s, sep)
    if m < 0 { break }
    a[i] = s[:m+sepSave]
    s = s[m+len(sep):]
    i++
}
a[i] = s
``` -/
def genSplitLoop (sep : Nat) : Nat → GoString → List GoString
  | 0, s => [s]
  | k + 1, s =>
    let m := IndexByte s sep
    if m < 0 then [s]
    else s.take m.toNat :: genSplitLoop sep k (s.drop (m.toNat + 1))

/-- Go `strings.Split(s, sep)` for a one-byte separator `sep` (the only use in
the source is `strings.Split(r, "-")`): `genSplit(s, sep, 0, -1)`, where the
number of parts is `n = Count(s, sep) + 1`, capped at `len(s) + 1`. -/
def Split (s : GoString) (sep : Nat) : List GoString :=
  let n := Count s sep + 1
  let n := if n > s.length + 1 then s.length + 1 else n
  genSplitLoop sep (n - 1) s

/-! ## `strconv` -/

/-- The two kinds of `*strconv.NumError` that `ParseInt(s, 10, 64)` can report. -/
inductive NumError
  | ErrSyntax
  | ErrRange
  deriving DecidableEq, Repr

/-- Go `strconv.lower`: `c | ('x' - 'X')`. -/
def lower (c : Nat) : Nat := c ||| 32

/-- The digit loop of Go `strconv.ParseUint` at `base = 10`, `bitSize = 64`
(so `cutoff = maxUint64/10 + 1`, `maxVal = maxUint64`, and `_` is not a digit
separator because `base != 0`); `n` is the value accumulated so far.
```go
for _, c := range []byte(s) {
    var d byte
    switch {
    case c == '_' && base0: ...
    case '0' <= c && c <= '9':              d = c - '0'
    case 'a' <= lower(c) && lower(c) <= 'z': d = lower(c) - 'a' + 10
    default: return 0, syntaxError(fnParseUint, s0)
    }
    if d >= byte(base) { return 0, syntaxError(fnParseUint, s0) }
    if n >= cutoff { return maxVal, rangeError(fnParseUint, s0) }
    n *= uint64(base)
    n1 := n + uint64(d)
    if n1 < n || n1 > maxVal { return maxVal, rangeError(fnParseUint, s0) }
    n = n1
}
return n, nil
``` -/
def parseUintLoop : GoString → Nat → Nat × Option NumError
  | [], n => (n, none)
  | c :: cs, n =>
    let d? : Option Nat :=
      if 48 ≤ c ∧ c ≤ 57 then some (c - 48)
      else if 97 ≤ lower c ∧ lower c ≤ 122 then some (lower c - 97 + 10)
      else none
    match d? with
    | none => (0, some NumError.ErrSyntax)
    | some d =>
      if d ≥ 10 then (0, some NumError.ErrSyntax)
      else if n ≥ maxUint64 / 10 + 1 then (maxUint64, some NumError.ErrRange)
      else
        let n10 := (n * 10) % 2 ^ 64
        let n1 := (n10 + d) % 2 ^ 64
        if n1 < n10 ∨ n1 > maxUint64 then (maxUint64, some NumError.ErrRange)
        else parseUintLoop cs n1

/-- Go `strconv.ParseUint(s, 10, 64)`: the value and the error (`none` is Go
`nil`). -/
def ParseUint (s : GoString) : Nat × Option NumError :=
  if s = [] then (0, some NumError.ErrSyntax) else parseUintLoop s 0

/-- Go `strconv.ParseInt(s, 10, 64)`: the value and the error.  Both are
returned, as in Go: on a range error the value is the nearest bound of
`int64`, on a syntax error it is `0`.
```go
if s == "" { return 0, syntaxError(fnParseInt, s) }
s0 := s
neg := false
if s[0] == '+' { s = s[1:] } else if s[0] == '-' { neg = true; s = s[1:] }
var un uint64
un, err = ParseUint(s, base, bitSize)
if err != nil && err.(*NumError).Err != ErrRange { ...; return 0, err }
cutoff := uint64(1 << uint(bitSize-1))
if !neg && un >= cutoff { return int64(cutoff - 1), rangeError(fnParseInt, s0) }
if neg && un > cutoff { return -int64(cutoff), rangeError(fnParseInt, s0) }
n := int64(un)
if neg { n = -n }
return n, nil
``` -/
def ParseInt (s : GoString) : Int × Option NumError :=
  match s with
  | [] => (0, some NumError.ErrSyntax)
  | c :: rest =>
    let neg : Bool := if c = 43 then false else if c = 45 then true else false
    let s1 : GoString := if c = 43 then rest else if c = 45 then rest else s
    let un := (ParseUint s1).1
    let err := (ParseUint s1).2
    if err = some NumError.ErrSyntax then (0, err)
    else
      let cutoff : Nat := 2 ^ 63
      if !neg && decide (un ≥ cutoff) then (wrapInt64 ((cutoff : Int) - 1), some NumError.ErrRange)
      else if neg && decide (un > cutoff) then
        (wrapInt64 (-(wrapInt64 cutoff)), some NumError.ErrRange)
      else
        let n := wrapInt64 un
        (if neg then wrapInt64 (-n) else n, none)

/-- Go `strconv.digits`. -/
def digits : GoString := lit "0123456789abcdefghijklmnopqrstuvwxyz"

/-- Go `strconv.smallsString`: the two-digit renderings of `0` to `99`. -/
def smallsString : GoString :=
  lit "00010203040506070809" ++
  lit "10111213141516171819" ++
  lit "20212223242526272829" ++
  lit "30313233343536373839" ++
  lit "40414243444546474849" ++
  lit "50515253545556575859" ++
  lit "60616263646566676869" ++
  lit "70717273747576777879" ++
  lit "80818283848586878889" ++
  lit "90919293949596979899"

/-- The byte `s[i]` of a Go string at an index that is in bounds. -/
def byteAt (s : GoString) (i : Nat) : Nat := s.getD i 0

/-- Go `strconv.small`, for `0 <= i < 100`:
`if i < 10 { return digits[i : i+1] }; return smallsString[i*2 : i*2+2]`. -/
def small (i : Nat) : GoString :=
  if i < 10 then (digits.drop i).take 1 else (smallsString.drop (i * 2)).take 2

/-- The base-10 branch of Go `strconv.formatBits` on a 64-bit host; `a` holds
the bytes already written (the buffer is filled from its end), the first
argument bounds the number of passes through the `for`.
```go
for us >= 100 {
    is := us % 100 * 2
    us /= 100
    i -= 2
    a[i+1] = smallsString[is+1]
    a[i+0] = smallsString[is+0]
}
// us < 100
is := us * 2
i--
a[i] = smallsString[is+1]
if us >= 10 {
    i--
    a[i] = smallsString[is]
}
``` -/
def formatBitsLoop : Nat → Nat → GoString → GoString
  | 0, _, a => a
  | fuel + 1, us, a =>
    if us ≥ 100 then
      let is := us % 100 * 2
      formatBitsLoop fuel (us / 100) (byteAt smallsString is :: byteAt smallsString (is + 1) :: a)
    else
      let is := us * 2
      let a := byteAt smallsString (is + 1) :: a
      if us ≥ 10 then byteAt smallsString is :: a else a

/-- Go `strconv.formatBits(nil, u, 10, neg, false)`: `u` is the `uint64`
conversion of the number, negated (modulo `2 ^ 64`) when `neg`; a `uint64`
has at most 20 decimal digits, so the loop is entered at most 10 times. -/
def formatBits (u : Nat) (neg : Bool) : GoString :=
  let u := if neg then (2 ^ 64 - u) % 2 ^ 64 else u
  let a := formatBitsLoop 11 u []
  if neg then 45 :: a else a

/-- Go `strconv.FormatInt(i, 10)` for an `int64` `i`.
```go
if fastSmalls && 0 <= i && i < nSmalls && base == 10 { return small(int(i)) }
_, s := formatBits(nil, uint64(i), base, i < 0, false)
return s
``` -/
def FormatInt (i : Int) : GoString :=
  if 0 ≤ i ∧ i < 100 then small i.toNat
  else formatBits (i % 2 ^ 64).toNat (decide (i < 0))

/-! ## Slice expressions -/

/-- The Go slice expression `a[lo:hi]` on a byte slice: a run-time panic
(`none`) unless `0 <= lo <= hi <= cap(a)`, otherwise the elements at offsets
`lo` to `hi - 1`.  Both slice expressions of `Apply` have `hi <= len(a)`
(`hi` is `len(a)` itself, or has just been clamped to it), and
`len(a) <= cap(a)`, so the upper check is written against `len(a)`. -/
def slice (a : List Nat) (lo hi : Int) : Option (List Nat) :=
  if 0 ≤ lo ∧ lo ≤ hi ∧ hi ≤ (a.length : Int) then
    some ((a.drop lo.toNat).take (hi - lo).toNat)
  else none

/-! ## `byterange.go` -/

/-- The struct `ByteRange`: `End` is a `*int64`, `none` is `nil`.
```go
type ByteRange struct {
    Start     int64
    End       *int64
    RawString string
}
``` -/
structure ByteRange where
  Start : Int
  End : Option Int
  RawString : GoString
  deriving DecidableEq, Repr

/-- The function `CreateByteRange`.
```go
r := strings.TrimPrefix(s, "bytes=")
e := strings.Split(r, "-")
ret := ByteRange{ RawString: s }
if len(e) > 0 {
    ret.Start, _ = strconv.ParseInt(e[0], 10, 64)
}
if len(e) > 1 && e[1] != "" {
    end, _ := strconv.ParseInt(e[1], 10, 64)
    ret.End = &end
}
return ret
``` -/
def CreateByteRange (s : GoString) : ByteRange :=
  let r := TrimPrefix s (lit "bytes=")
  let e := Split r 45
  let ret : ByteRange := { Start := 0, End := none, RawString := s }
  let ret : ByteRange :=
    if h : e.length > 0 then { ret with Start := (ParseInt (e.get ⟨0, h⟩)).1 } else ret
  let ret : ByteRange :=
    if h : e.length > 1 then
      if e.get ⟨1, h⟩ ≠ [] then { ret with End := some (ParseInt (e.get ⟨1, h⟩)).1 } else ret
    else ret
  ret

/-- The method `ByteRange.ToHeaderValue`.
```go
if r.End == nil { return "" }
end := *r.End
return "bytes " + strconv.FormatInt(r.Start, 10) + "-" + strconv.FormatInt(end, 10) +
    "/" + strconv.FormatInt(fileLength, 10)
``` -/
def ByteRange.ToHeaderValue (r : ByteRange) (fileLength : Int) : GoString :=
  match r.End with
  | none => []
  | some e =>
    lit "bytes " ++ FormatInt r.Start ++ lit "-" ++ FormatInt e ++ lit "/" ++ FormatInt fileLength

/-- The method `ByteRange.Apply`; `int` is 64 bits wide, so `int(end)` and
`int64(len(bytes))` are conversions between integers of the same width.
```go
if r.End == nil { return bytes[r.Start:] }
end := *r.End + 1
if int(end) > len(bytes) { end = int64(len(bytes)) }
return bytes[r.Start:end]
``` -/
def ByteRange.Apply (r : ByteRange) (bytes : List Nat) : Option (List Nat) :=
  match r.End with
  | none => slice bytes r.Start bytes.length
  | some e =>
    let end0 := wrapInt64 (e + 1)
    let end1 := if wrapInt64 end0 > (bytes.length : Int) then wrapInt64 bytes.length else end0
    slice bytes r.Start end1

/-! ## Reference notions used in the statements -/

/-- The canonical base-10 rendering of a natural number (no sign, no leading
zero except for `0` itself), as bytes. -/
def decimal (n : Nat) : GoString := (Nat.toDigits 10 n).map Char.toNat

/-- The canonical base-10 rendering of an integer: a `-` sign in front of the
digits of a negative number. -/
def decimalInt (i : Int) : GoString :=
  if i < 0 then 45 :: decimal i.natAbs else decimal i.toNat

/-- The Go sub-slice `a[lo:hi]` of a sequence, for `lo <= hi <= len(a)`. -/
def subSlice (a : List Nat) (lo hi : Nat) : List Nat := (a.drop lo).take (hi - lo)

/-- The text of `r` before its first `-` (all of `r` when it has none). -/
def beforeDash (r : GoString) : GoString := r.takeWhile (fun c => decide (c ≠ 45))

/-- The text of `r` after its first `-`, when `r` has one. -/
def afterDash (r : GoString) : Option GoString :=
  match r.dropWhile (fun c => decide (c ≠ 45)) with
  | [] => none
  | _ :: t => some t

/-- The number the specification reads from a part: its base-10 parse as a
signed 64-bit integer, or `0` when that parse reports an error. -/
def parseOrZero (p : GoString) : Int :=
  if (ParseInt p).2 = none then (ParseInt p).1 else 0

/-- The reference parser in the words of the specification: strip a leading
`bytes=`, cut the remainder at its first `-` only; part 1 is the text before
it, part 2 the whole text after it; `Start` is the parse of part 1 or `0`,
`End` is present when a `-` occurs and part 2 is not empty, with the parse of
part 2 or `0` as its value.  The result is the pair `(Start, End)`. -/
def referenceFirstDash (s : GoString) : Int × Option Int :=
  let r := TrimPrefix s (lit "bytes=")
  let endv : Option Int :=
    match afterDash r with
    | none => none
    | some p2 => if p2 = [] then none else some (parseOrZero p2)
  (parseOrZero (beforeDash r), endv)

/-- A reference parser that cuts at every `-`: part 1 is the text before the
first `-`, part 2 the text between the first `-` and the next one (or the end
of the string); the numbers are the values `ParseInt` returns, also when it
reports an error.  The result is the pair `(Start, End)`. -/
def referenceEveryDash (s : GoString) : Int × Option Int :=
  let r := TrimPrefix s (lit "bytes=")
  let endv : Option Int :=
    match afterDash r with
    | none => none
    | some t => if beforeDash t = [] then none else some (ParseInt (beforeDash t)).1
  ((ParseInt (beforeDash r)).1, endv)

/-- The number `strconv.ParseInt` returns along with an error for a text
without a minus sign: `0` with a syntax error, the largest `int64` with a
range error. -/
def valueOnError : NumError → Int
  | NumError.ErrSyntax => 0
  | NumError.ErrRange => 2 ^ 63 - 1

/-! ## Machine integers: basic facts -/

theorem wrapInt64_of_inInt64 {x : Int} (h : InInt64 x) : wrapInt64 x = x := by
  unfold InInt64 at h
  unfold wrapInt64
  omega

/-! ## The decimal rendering -/

theorem digitChar_toNat {d : Nat} (h : d < 10) : (Nat.digitChar d).toNat = 48 + d := by
  interval_cases d <;> rfl

/-- With enough fuel the core loop of `Nat.toDigits` does not depend on the
fuel, and the accumulator is only appended to. -/
theorem toDigitsCore_fuel (n : Nat) : ∀ (fuel : Nat) (ds : List Char), n < fuel →
    Nat.toDigitsCore 10 fuel n ds = Nat.toDigitsCore 10 (n + 1) n [] ++ ds := by
  induction n using Nat.strong_induction_on with
  | _ n ih =>
    intro fuel ds hf
    obtain ⟨f, rfl⟩ : ∃ f, fuel = f + 1 := ⟨fuel - 1, by omega⟩
    by_cases h0 : n / 10 = 0
    · simp [Nat.toDigitsCore, h0]
    · have hlt : n / 10 < n := by omega
      rw [Nat.toDigitsCore, Nat.toDigitsCore]
      simp only [h0, if_false]
      rw [ih (n / 10) hlt f _ (by omega), ih (n / 10) hlt n _ hlt]
      simp

theorem decimal_of_lt_ten {n : Nat} (h : n < 10) : decimal n = [48 + n] := by
  have h0 : n / 10 = 0 := by omega
  have hm : n % 10 = n := by omega
  simp [decimal, Nat.toDigits, Nat.toDigitsCore, h0, hm, digitChar_toNat h]

theorem decimal_step {n : Nat} (h : 10 ≤ n) :
    decimal n = decimal (n / 10) ++ [48 + n % 10] := by
  have h0 : ¬ n / 10 = 0 := by omega
  have hlt : n / 10 < n := by omega
  unfold decimal Nat.toDigits
  rw [Nat.toDigitsCore]
  simp only [h0, if_false]
  rw [toDigitsCore_fuel (n / 10) n _ hlt]
  simp [digitChar_toNat (Nat.mod_lt n (by decide : 10 > 0))]

/-- Every byte of a decimal rendering is one of `'0'` to `'9'`. -/
theorem decimal_bytes (n : Nat) : ∀ c ∈ decimal n, 48 ≤ c ∧ c ≤ 57 := by
  induction n using Nat.strong_induction_on with
  | _ n ih =>
    intro c hc
    by_cases h : n < 10
    · rw [decimal_of_lt_ten h] at hc
      simp at hc
      omega
    · rw [decimal_step (by omega)] at hc
      simp only [List.mem_append, List.mem_singleton] at hc
      rcases hc with hc | hc
      · exact ih (n / 10) (by omega) c hc
      · omega

theorem decimal_ne_nil (n : Nat) : decimal n ≠ [] := by
  by_cases h : n < 10
  · rw [decimal_of_lt_ten h]; simp
  · rw [decimal_step (by omega)]; simp

theorem dash_not_mem_decimal (n : Nat) : (45 : Nat) ∉ decimal n := by
  intro h
  have := decimal_bytes n 45 h
  omega

/-! ## `strconv.ParseInt` on decimal renderings -/

/-- One pass of the digit loop on a digit byte, when nothing overflows. -/
theorem parseUintLoop_cons_digit {d n : Nat} (cs : GoString) (hd : d < 10)
    (hn : n * 10 + d < 2 ^ 64) :
    parseUintLoop ((48 + d) :: cs) n = parseUintLoop cs (n * 10 + d) := by
  have h1 : 48 ≤ 48 + d ∧ 48 + d ≤ 57 := by omega
  have h2 : ¬ (48 + d - 48 ≥ 10) := by omega
  have h3 : ¬ (n ≥ maxUint64 / 10 + 1) := by unfold maxUint64; omega
  have h4 : (n * 10) % 2 ^ 64 = n * 10 := Nat.mod_eq_of_lt (by omega)
  have h5 : (n * 10 + (48 + d - 48)) % 2 ^ 64 = n * 10 + d := by
    rw [Nat.mod_eq_of_lt (by omega)]; omega
  have h6 : ¬ (n * 10 + d < n * 10 ∨ n * 10 + d > maxUint64) := by unfold maxUint64; omega
  rw [parseUintLoop]
  simp only [h1, and_self, if_true, h2, if_false, h3, h4, h5, h6]

/-- The body of the digit loop, with its local names written out. -/
theorem parseUintLoop_cons (c : Nat) (cs : GoString) (n : Nat) :
    parseUintLoop (c :: cs) n =
      match (if 48 ≤ c ∧ c ≤ 57 then some (c - 48)
        else if 97 ≤ lower c ∧ lower c ≤ 122 then some (lower c - 97 + 10) else none) with
      | none => (0, some NumError.ErrSyntax)
      | some d =>
        if d ≥ 10 then (0, some NumError.ErrSyntax)
        else if n ≥ maxUint64 / 10 + 1 then (maxUint64, some NumError.ErrRange)
        else if ((n * 10) % 2 ^ 64 + d) % 2 ^ 64 < (n * 10) % 2 ^ 64 ∨
            ((n * 10) % 2 ^ 64 + d) % 2 ^ 64 > maxUint64 then
          (maxUint64, some NumError.ErrRange)
        else parseUintLoop cs (((n * 10) % 2 ^ 64 + d) % 2 ^ 64) := by
  rw [parseUintLoop]

/-- The digit loop run over `xs ++ ys`, when it gets through `xs` without an
error, continues on `ys` from the value reached. -/
theorem parseUintLoop_append (xs ys : GoString) : ∀ (a v : Nat),
    parseUintLoop xs a = (v, none) → parseUintLoop (xs ++ ys) a = parseUintLoop ys v := by
  induction xs with
  | nil =>
    intro a v h
    simp only [parseUintLoop, Prod.mk.injEq, and_true] at h
    simp [h]
  | cons c cs ih =>
    intro a v h
    rw [List.cons_append, parseUintLoop_cons]
    rw [parseUintLoop_cons] at h
    split at h
    · simp at h
    · rename_i d hd
      by_cases g1 : d ≥ 10
      · simp [g1] at h
      · by_cases g2 : a ≥ maxUint64 / 10 + 1
        · simp [g1, g2] at h
        · by_cases g3 : ((a * 10) % 2 ^ 64 + d) % 2 ^ 64 < (a * 10) % 2 ^ 64 ∨
              ((a * 10) % 2 ^ 64 + d) % 2 ^ 64 > maxUint64
          · rw [if_neg g1, if_neg g2, if_pos g3] at h
            simp at h
          · rw [if_neg g1, if_neg g2, if_neg g3] at h
            rw [if_neg g1, if_neg g2, if_neg g3]
            exact ih _ _ h

/-- The digit loop reads the decimal rendering of a `uint64` back. -/
theorem parseUintLoop_decimal (n : Nat) : n < 2 ^ 64 →
    parseUintLoop (decimal n) 0 = (n, none) := by
  induction n using Nat.strong_induction_on with
  | _ n ih =>
    intro hn
    by_cases h : n < 10
    · rw [decimal_of_lt_ten h, parseUintLoop_cons_digit [] h (by omega)]
      simp [parseUintLoop]
    · rw [decimal_step (by omega),
        parseUintLoop_append _ _ 0 (n / 10) (ih (n / 10) (by omega) (by omega)),
        parseUintLoop_cons_digit [] (Nat.mod_lt n (by decide)) (by omega)]
      simp only [parseUintLoop, Prod.mk.injEq, and_true]
      omega

theorem ParseUint_decimal {n : Nat} (hn : n < 2 ^ 64) : ParseUint (decimal n) = (n, none) := by
  unfold ParseUint
  rw [if_neg (decimal_ne_nil n)]
  exact parseUintLoop_decimal n hn

/-- `ParseInt` on a string without a sign that `ParseUint` reads as a value
below `2 ^ 63`. -/
theorem ParseInt_of_ParseUint {s : GoString} {n : Nat} (hs : ∀ c ∈ s.head?, c ≠ 43 ∧ c ≠ 45)
    (hu : ParseUint s = (n, none)) (hn : n < 2 ^ 63) : ParseInt s = ((n : Int), none) := by
  cases s with
  | nil => simp [ParseUint] at hu
  | cons c rest =>
    have hc := hs c (by simp)
    have hw : wrapInt64 (n : Int) = n := wrapInt64_of_inInt64 (by unfold InInt64; omega)
    have hlt : ¬ (n ≥ 2 ^ 63) := by omega
    simp only [ParseInt, hc.1, hc.2, if_false, hu, hw, hlt]
    simp

/-- `ParseInt` reads the decimal rendering of a non-negative `int64` back,
without an error. -/
theorem ParseInt_decimal {n : Nat} (hn : n < 2 ^ 63) : ParseInt (decimal n) = ((n : Int), none) := by
  apply ParseInt_of_ParseUint _ (ParseUint_decimal (by omega)) hn
  intro c hc
  have hm : c ∈ decimal n := List.mem_of_mem_head? hc
  have := decimal_bytes n c hm
  omega

/-! ## `strings.TrimPrefix` and `strings.Split` -/

theorem TrimPrefix_append (pre s : GoString) : TrimPrefix (pre ++ s) pre = s := by
  simp [TrimPrefix, HasPrefix]

theorem IndexByte_of_not_mem {s : GoString} {c : Nat} (h : c ∉ s) : IndexByte s c = -1 := by
  induction s with
  | nil => rfl
  | cons x xs ih =>
    have hx : ¬ x = c := fun e => h (by simp [e])
    have hxs : c ∉ xs := fun e => h (by simp [e])
    simp [IndexByte, hx, ih hxs]

theorem IndexByte_append {a : GoString} {c : Nat} (b : GoString) (h : c ∉ a) :
    IndexByte (a ++ c :: b) c = a.length := by
  induction a with
  | nil => simp [IndexByte]
  | cons x xs ih =>
    have hx : ¬ x = c := fun e => h (by simp [e])
    have hxs : c ∉ xs := fun e => h (by simp [e])
    have hlt : ¬ ((xs.length : Int) < 0) := by omega
    simp [IndexByte, hx, ih hxs, hlt]

theorem genSplitLoop_of_not_mem {sep : Nat} {s : GoString} (k : Nat) (h : sep ∉ s) :
    genSplitLoop sep k s = [s] := by
  cases k with
  | zero => rfl
  | succ k => simp [genSplitLoop, IndexByte_of_not_mem h]

theorem genSplitLoop_append {sep : Nat} {a : GoString} (k : Nat) (b : GoString) (h : sep ∉ a) :
    genSplitLoop sep (k + 1) (a ++ sep :: b) = a :: genSplitLoop sep k b := by
  have hlt : ¬ ((a.length : Int) < 0) := by omega
  simp [genSplitLoop, IndexByte_append b h, hlt]

/-- The cap `len(s) + 1` on the number of parts is never reached. -/
theorem Split_eq (s : GoString) (sep : Nat) : Split s sep = genSplitLoop sep (Count s sep) s := by
  have h : ¬ (Count s sep + 1 > s.length + 1) := by
    have := List.count_le_length sep s
    unfold Count
    omega
  simp [Split, h]

/-- A string without the separator is its own single part. -/
theorem Split_of_not_mem {sep : Nat} {s : GoString} (h : sep ∉ s) : Split s sep = [s] := by
  rw [Split_eq, genSplitLoop_of_not_mem _ h]

/-- The first part ends at the first separator; the rest is split in turn. -/
theorem Split_append {sep : Nat} {a : GoString} (b : GoString) (h : sep ∉ a) :
    Split (a ++ sep :: b) sep = a :: Split b sep := by
  have hc : Count (a ++ sep :: b) sep = Count b sep + 1 := by
    simp [Count, List.count_eq_zero_of_not_mem h]
  rw [Split_eq, Split_eq, hc, genSplitLoop_append _ _ h]

/-! ## `CreateByteRange` in terms of the parts of the split -/

theorem CreateByteRange_Start {s p0 : GoString} {ps : List GoString}
    (h : Split (TrimPrefix s (lit "bytes=")) 45 = p0 :: ps) :
    (CreateByteRange s).Start = (ParseInt p0).1 := by
  unfold CreateByteRange
  dsimp only
  generalize Split (TrimPrefix s (lit "bytes=")) 45 = e at h
  subst h
  cases ps with
  | nil => simp
  | cons p1 ps =>
    by_cases h1 : p1 = []
    · simp [h1]
    · simp [h1]

theorem CreateByteRange_End_single {s p0 : GoString}
    (h : Split (TrimPrefix s (lit "bytes=")) 45 = [p0]) : (CreateByteRange s).End = none := by
  unfold CreateByteRange
  dsimp only
  generalize Split (TrimPrefix s (lit "bytes=")) 45 = e at h
  subst h
  simp

theorem CreateByteRange_End_cons {s p0 p1 : GoString} {ps : List GoString}
    (h : Split (TrimPrefix s (lit "bytes=")) 45 = p0 :: p1 :: ps) :
    (CreateByteRange s).End = if p1 = [] then none else some (ParseInt p1).1 := by
  unfold CreateByteRange
  dsimp only
  generalize Split (TrimPrefix s (lit "bytes=")) 45 = e at h
  subst h
  by_cases h1 : p1 = []
  · simp [h1]
  · simp [h1]

theorem decimalInt_of_nonneg {i : Int} (h : 0 ≤ i) : decimalInt i = decimal i.toNat := by
  simp [decimalInt, not_lt.mpr h]

theorem lit_dash : lit "-" = [45] := by decide

/-- The remainder `S-E` of a well-formed header splits into its two numbers. -/
theorem Split_decimal_pair (S E : Nat) :
    Split (TrimPrefix (lit "bytes=" ++ decimal S ++ lit "-" ++ decimal E) (lit "bytes=")) 45
      = [decimal S, decimal E] := by
  rw [List.append_assoc, List.append_assoc, TrimPrefix_append, lit_dash, List.singleton_append,
    Split_append _ (dash_not_mem_decimal S), Split_of_not_mem (dash_not_mem_decimal E)]

/-- The remainder `S-` of an open-ended header splits into the number and
an empty second part. -/
theorem Split_decimal_open (S : Nat) :
    Split (TrimPrefix (lit "bytes=" ++ decimal S ++ lit "-") (lit "bytes=")) 45
      = [decimal S, []] := by
  rw [List.append_assoc, TrimPrefix_append, lit_dash,
    Split_append _ (dash_not_mem_decimal S), Split_of_not_mem (List.not_mem_nil _)]

/-- Parsing `bytes=S-E` written with the digits of two natural numbers below
`2^63` gives back `S` and `E`. -/
theorem CreateByteRange_decimal_pair {S E : Nat} (hS : S < 2 ^ 63) (hE : E < 2 ^ 63) :
    (CreateByteRange (lit "bytes=" ++ decimal S ++ lit "-" ++ decimal E)).Start = (S : Int) ∧
    (CreateByteRange (lit "bytes=" ++ decimal S ++ lit "-" ++ decimal E)).End
      = some (E : Int) := by
  have hsplit := Split_decimal_pair S E
  constructor
  · rw [CreateByteRange_Start hsplit, ParseInt_decimal hS]
  · rw [CreateByteRange_End_cons hsplit, if_neg (decimal_ne_nil _), ParseInt_decimal hE]

/-- C1. For all integers `S` and `E` between `0` and `2^63 - 1`, parsing the
header `bytes=` followed by the decimal digits of `S`, a `-` and the decimal
digits of `E` gives `Start = S` and `End` present with value `E`. -/
theorem CreateByteRange_closed_range (S E : Int) (hS0 : 0 ≤ S) (hS : S ≤ 2 ^ 63 - 1)
    (hE0 : 0 ≤ E) (hE : E ≤ 2 ^ 63 - 1) :
    (CreateByteRange (lit "bytes=" ++ decimalInt S ++ lit "-" ++ decimalInt E)).Start = S ∧
    (CreateByteRange (lit "bytes=" ++ decimalInt S ++ lit "-" ++ decimalInt E)).End = some E := by
  rw [decimalInt_of_nonneg hS0, decimalInt_of_nonneg hE0]
  have h := @CreateByteRange_decimal_pair S.toNat E.toNat (by omega) (by omega)
  rw [Int.toNat_of_nonneg hS0, Int.toNat_of_nonneg hE0] at h
  exact h

/-- C1, on the header `bytes=0-499`: `Start` is `0` and `End` is `499`. -/
theorem CreateByteRange_closed_range_witness :
    (CreateByteRange (lit "bytes=0-499")).Start = 0 ∧
    (CreateByteRange (lit "bytes=0-499")).End = some 499 := by
  have h := CreateByteRange_closed_range 0 499 (by decide) (by decide) (by decide) (by decide)
  have e : lit "bytes=" ++ decimalInt 0 ++ lit "-" ++ decimalInt 499 = lit "bytes=0-499" := by
    decide
  rw [e] at h
  exact h

/-- C2. For every integer `S` between `0` and `2^63 - 1`, parsing the header
`bytes=` followed by the decimal digits of `S` and a `-` gives `Start = S`
and `End` absent. -/
theorem CreateByteRange_open_range (S : Int) (hS0 : 0 ≤ S) (hS : S ≤ 2 ^ 63 - 1) :
    (CreateByteRange (lit "bytes=" ++ decimalInt S ++ lit "-")).Start = S ∧
    (CreateByteRange (lit "bytes=" ++ decimalInt S ++ lit "-")).End = none := by
  rw [decimalInt_of_nonneg hS0]
  have hsplit := Split_decimal_open S.toNat
  constructor
  · rw [CreateByteRange_Start hsplit, ParseInt_decimal (by omega)]
    simp [hS0]
  · rw [CreateByteRange_End_cons hsplit, if_pos rfl]

/-- C2, on the header `bytes=500-`: `Start` is `500` and `End` is absent. -/
theorem CreateByteRange_open_range_witness :
    (CreateByteRange (lit "bytes=500-")).Start = 500 ∧
    (CreateByteRange (lit "bytes=500-")).End = none := by
  have h := CreateByteRange_open_range 500 (by decide) (by decide)
  have e : lit "bytes=" ++ decimalInt 500 ++ lit "-" = lit "bytes=500-" := by decide
  rw [e] at h
  exact h

/-! ## `Apply` -/

/-- A slice expression whose bounds are in order and inside the buffer does
not panic. -/
theorem slice_of_le {a : List Nat} {lo hi : Int} (h0 : 0 ≤ lo) (h1 : lo ≤ hi)
    (h2 : hi ≤ (a.length : Int)) : slice a lo hi = some (subSlice a lo.toNat hi.toNat) := by
  have e : (hi - lo).toNat = hi.toNat - lo.toNat := by omega
  simp [slice, subSlice, h0, h1, h2, e]

theorem subSlice_length {a : List Nat} {lo hi : Nat} (h2 : hi ≤ a.length) :
    (subSlice a lo hi).length = hi - lo := by
  simp [subSlice]
  omega

/-- The byte at offset `i` of `a[lo:hi]` is the byte at offset `lo + i` of `a`. -/
theorem subSlice_getElem? {a : List Nat} {lo hi : Nat} (i : Nat) (hi' : i < hi - lo) :
    (subSlice a lo hi)[i]? = a[lo + i]? := by
  simp [subSlice, List.getElem?_take, hi']

/-- With `End` present and `End + 1` inside the buffer, `Apply` cuts at
`End + 1` without clamping. -/
theorem Apply_closed {r : ByteRange} {E : Int} {data : List Nat} (hE : r.End = some E)
    (h0 : 0 ≤ r.Start) (h1 : r.Start ≤ E + 1) (h2 : E + 1 ≤ (data.length : Int))
    (hlen : (data.length : Int) < 2 ^ 63) :
    r.Apply data = some (subSlice data r.Start.toNat (E + 1).toNat) := by
  have hw : wrapInt64 (E + 1) = E + 1 := wrapInt64_of_inInt64 (by unfold InInt64; omega)
  have hn : ¬ (E + 1 > (data.length : Int)) := by omega
  unfold ByteRange.Apply
  simp only [hE, hw, hn, if_false]
  exact slice_of_le h0 h1 h2

/-- C4. For a buffer `data` and a range with `End` present and
`0 <= Start <= End < len(data)`, `Apply` returns `data[Start : End+1]`: the
`End - Start + 1` bytes found at the offsets `Start` to `End` of `data`. -/
theorem Apply_closed_range (r : ByteRange) (E : Int) (data : List Nat) (hE : r.End = some E)
    (h0 : 0 ≤ r.Start) (h1 : r.Start ≤ E) (h2 : E < (data.length : Int))
    (hlen : (data.length : Int) < 2 ^ 63) :
    ∃ out, r.Apply data = some out ∧
      out = subSlice data r.Start.toNat (E.toNat + 1) ∧
      (out.length : Int) = E - r.Start + 1 ∧
      ∀ i : Nat, (i : Int) ≤ E - r.Start → out[i]? = data[r.Start.toNat + i]? := by
  have e : (E + 1).toNat = E.toNat + 1 := by omega
  refine ⟨subSlice data r.Start.toNat (E.toNat + 1), ?_, rfl, ?_, ?_⟩
  · rw [Apply_closed hE h0 (by omega) (by omega) hlen, e]
  · rw [subSlice_length (by omega)]
    omega
  · intro i hi
    exact subSlice_getElem? i (by omega)

/-- C4, on a range with `Start = 0`, `End = 499` and a buffer of 1000 bytes:
the result is `data[0:500]`. -/
theorem Apply_closed_range_witness :
    ∃ out, (ByteRange.mk 0 (some 499) []).Apply (List.replicate 1000 7) = some out ∧
      out = subSlice (List.replicate 1000 7) 0 500 ∧
      (out.length : Int) = 499 - 0 + 1 ∧
      ∀ i : Nat, (i : Int) ≤ 499 - 0 → out[i]? = (List.replicate 1000 7)[0 + i]? :=
  Apply_closed_range (ByteRange.mk 0 (some 499) []) 499 (List.replicate 1000 7) rfl
    (by decide) (by decide) (by rw [List.length_replicate]; decide)
    (by rw [List.length_replicate]; decide)

/-- C3. Round trip of parsing and slicing: for a buffer `data` and integers
`0 <= S <= E < len(data)`, applying the range parsed from `bytes=S-E` to
`data` does not fail and gives exactly `E - S + 1` bytes. -/
theorem Apply_CreateByteRange_length (data : List Nat) (S E : Int) (hS0 : 0 ≤ S) (hSE : S ≤ E)
    (hE : E < (data.length : Int)) (hlen : (data.length : Int) < 2 ^ 63) :
    ∃ out, (CreateByteRange (lit "bytes=" ++ decimalInt S ++ lit "-" ++ decimalInt E)).Apply data
        = some out ∧ (out.length : Int) = E - S + 1 := by
  rw [decimalInt_of_nonneg hS0, decimalInt_of_nonneg (le_trans hS0 hSE)]
  obtain ⟨hs, he⟩ := @CreateByteRange_decimal_pair S.toNat E.toNat (by omega) (by omega)
  rw [Int.toNat_of_nonneg hS0] at hs
  rw [Int.toNat_of_nonneg (le_trans hS0 hSE)] at he
  refine ⟨_, Apply_closed he (by omega) (by omega) (by omega) hlen, ?_⟩
  rw [hs, subSlice_length (by omega)]
  omega

/-- C3, on the header `bytes=2-4` and a buffer of six bytes: three bytes
come back. -/
theorem Apply_CreateByteRange_length_witness :
    ∃ out, (CreateByteRange (lit "bytes=2-4")).Apply [10, 11, 12, 13, 14, 15] = some out ∧
      (out.length : Int) = 4 - 2 + 1 := by
  have h := Apply_CreateByteRange_length [10, 11, 12, 13, 14, 15] 2 4 (by decide) (by decide)
    (by decide) (by decide)
  have e : lit "bytes=" ++ decimalInt 2 ++ lit "-" ++ decimalInt 4 = lit "bytes=2-4" := by decide
  rw [e] at h
  exact h

theorem wrapInt64_inInt64 (x : Int) : InInt64 (wrapInt64 x) := by
  unfold InInt64 wrapInt64
  omega

/-- The clamp, where `End + 1` does not overflow `int64`: an effective end at
or past the end of the buffer is brought down to `len(data)`. -/
theorem Apply_clamp_of_lt_max {r : ByteRange} {E : Int} {data : List Nat} (hE : r.End = some E)
    (hmax : E < 2 ^ 63 - 1) (hge : E + 1 ≥ (data.length : Int)) (h0 : 0 ≤ r.Start)
    (h1 : r.Start ≤ (data.length : Int)) (hlen : (data.length : Int) < 2 ^ 63) :
    r.Apply data = some (subSlice data r.Start.toNat data.length) := by
  have hw : wrapInt64 (E + 1) = E + 1 := wrapInt64_of_inInt64 (by unfold InInt64; omega)
  have hl : wrapInt64 (data.length : Int) = data.length :=
    wrapInt64_of_inInt64 (by unfold InInt64; omega)
  unfold ByteRange.Apply
  simp only [hE, hw, hl]
  by_cases hgt : E + 1 > (data.length : Int)
  · rw [if_pos hgt, slice_of_le h0 h1 (le_refl _)]
    simp
  · have e : E + 1 = (data.length : Int) := by omega
    rw [if_neg hgt, e, slice_of_le h0 h1 (le_refl _)]
    simp

/-- With `End = 2^63 - 1` the addition `*r.End + 1` wraps around to `-2^63`,
the clamp is not taken, and the slice expression panics on every buffer. -/
theorem Apply_of_End_max {r : ByteRange} (data : List Nat) (hE : r.End = some (2 ^ 63 - 1)) :
    r.Apply data = none := by
  have hw : wrapInt64 (2 ^ 63 - 1 + 1) = -(2 ^ 63) := by decide
  have hn : ¬ (-(2 ^ 63) > (data.length : Int)) := by omega
  unfold ByteRange.Apply
  simp only [hE, hw, wrapInt64_of_inInt64 (show InInt64 (-(2 ^ 63)) by decide), hn, if_false]
  unfold slice
  rw [if_neg]
  omega

/-- C5, at the largest `End`. The header `bytes=0-9223372036854775807` parses
to `Start = 0` and `End = 2^63 - 1`; for a buffer of three bytes `End + 1`
is at least `len(data)` and `0 <= Start <= len(data)`, yet `Apply` panics
instead of returning `data[0:3]`. -/
theorem Apply_clamp_overflow :
    (CreateByteRange (lit "bytes=0-9223372036854775807")).Start = 0 ∧
    (CreateByteRange (lit "bytes=0-9223372036854775807")).End = some (2 ^ 63 - 1) ∧
    ((2 ^ 63 - 1 : Int) + 1 ≥ (([1, 2, 3] : List Nat).length : Int)) ∧
    (CreateByteRange (lit "bytes=0-9223372036854775807")).Apply [1, 2, 3] = none := by
  decide

/-- C6. For a buffer `data` and a range with `End` absent and
`0 <= Start <= len(data)`, `Apply` returns `data[Start:]`: the
`len(data) - Start` bytes of `data` from offset `Start` on. -/
theorem Apply_open_range (r : ByteRange) (data : List Nat) (hE : r.End = none)
    (h0 : 0 ≤ r.Start) (h1 : r.Start ≤ (data.length : Int)) :
    ∃ out, r.Apply data = some out ∧
      out = data.drop r.Start.toNat ∧
      (out.length : Int) = (data.length : Int) - r.Start ∧
      ∀ i : Nat, out[i]? = data[r.Start.toNat + i]? := by
  refine ⟨data.drop r.Start.toNat, ?_, rfl, ?_, ?_⟩
  · unfold ByteRange.Apply
    simp only [hE]
    rw [slice_of_le h0 h1 (le_refl _)]
    simp [subSlice]
  · rw [List.length_drop]
    omega
  · intro i
    simp

/-- C6, on a range with `Start = 500`, `End` absent and a buffer of 1000
bytes: the result is `data[500:]`, of 500 bytes. -/
theorem Apply_open_range_witness :
    ∃ out, (ByteRange.mk 500 none []).Apply (List.replicate 1000 7) = some out ∧
      out = (List.replicate 1000 7).drop (500 : Int).toNat ∧
      (out.length : Int) = ((List.replicate 1000 7).length : Int) - 500 ∧
      ∀ i : Nat, out[i]? = (List.replicate 1000 7)[(500 : Int).toNat + i]? :=
  Apply_open_range (ByteRange.mk 500 none []) (List.replicate 1000 7) rfl (by decide)
    (by rw [List.length_replicate]; decide)

/-- C7. No clamp on the start: for a buffer `data` and a range with `End`
absent, if `Start > len(data)` or `Start < 0` then `Apply` panics (slice
bounds out of range) and returns nothing. -/
theorem Apply_open_out_of_bounds (r : ByteRange) (data : List Nat) (hE : r.End = none)
    (h : r.Start > (data.length : Int) ∨ r.Start < 0) : r.Apply data = none := by
  unfold ByteRange.Apply
  simp only [hE]
  unfold slice
  rw [if_neg]
  omega

/-- C7, on a buffer of three bytes and `Start = len(data) + 10`. -/
theorem Apply_open_out_of_bounds_witness :
    (ByteRange.mk 13 none []).Apply [1, 2, 3] = none :=
  Apply_open_out_of_bounds (ByteRange.mk 13 none []) [1, 2, 3] rfl (Or.inl (by decide))

/-- C8. Inverted bounds: for a buffer `data` and a range with `End` present,
if `Start > min(End + 1, len(data))` then `Apply` panics (slice bounds out of
range) and returns nothing, not an empty slice. -/
theorem Apply_inverted_bounds (r : ByteRange) (E : Int) (data : List Nat) (hE : r.End = some E)
    (hInt : InInt64 E) (hlen : (data.length : Int) < 2 ^ 63)
    (h : r.Start > min (E + 1) (data.length : Int)) : r.Apply data = none := by
  have hl : wrapInt64 (data.length : Int) = data.length :=
    wrapInt64_of_inInt64 (by unfold InInt64; omega)
  have hle : wrapInt64 (E + 1) ≤ E + 1 := by
    unfold InInt64 at hInt
    unfold wrapInt64
    omega
  unfold ByteRange.Apply
  simp only [hE, wrapInt64_of_inInt64 (wrapInt64_inInt64 (E + 1)), hl]
  unfold slice
  rw [if_neg]
  by_cases hgt : wrapInt64 (E + 1) > (data.length : Int)
  · rw [if_pos hgt]
    have : min (E + 1) (data.length : Int) = data.length := min_eq_right (by omega)
    omega
  · rw [if_neg hgt]
    have : min (E + 1) (data.length : Int) ≥ wrapInt64 (E + 1) := le_min hle (by omega)
    omega

/-- C8, on the range `Start = 10`, `End = 0` (the result of parsing
`bytes=10-abc`) and a buffer of twenty bytes. -/
theorem Apply_inverted_bounds_witness :
    (ByteRange.mk 10 (some 0) []).Apply (List.replicate 20 7) = none :=
  Apply_inverted_bounds (ByteRange.mk 10 (some 0) []) 0 (List.replicate 20 7) rfl (by decide)
    (by decide) (by decide)

/-! ## `strconv.FormatInt` writes the decimal rendering -/

/-- The table `smallsString` holds, at `2k` and `2k + 1`, the two decimal
digits of `k`. -/
theorem smallsString_spec : ∀ k < 100,
    byteAt smallsString (k * 2) = 48 + k / 10 ∧ byteAt smallsString (k * 2 + 1) = 48 + k % 10 := by
  decide

theorem small_eq_decimal : ∀ i < 100, small i = decimal i := by
  decide

/-- Two digits at a time, the loop of `formatBits` writes the decimal
rendering in front of what is already in the buffer. -/
theorem formatBitsLoop_eq_decimal (fuel : Nat) : ∀ (us : Nat) (a : GoString),
    us < 100 ^ fuel → 0 < fuel → formatBitsLoop fuel us a = decimal us ++ a := by
  induction fuel with
  | zero => intro us a _ h; omega
  | succ fuel ih =>
    intro us a hus _
    have hk := smallsString_spec (us % 100) (Nat.mod_lt us (by decide))
    rw [formatBitsLoop]
    by_cases h100 : us ≥ 100
    · have hf : 0 < fuel := by
        rcases Nat.eq_zero_or_pos fuel with h | h
        · subst h; simp at hus; omega
        · exact h
      have hlt : us / 100 < 100 ^ fuel := by
        rw [Nat.div_lt_iff_lt_mul (by decide)]
        rw [pow_succ] at hus
        exact hus
      have e1 : us / 10 / 10 = us / 100 := by omega
      have e2 : us % 100 / 10 = us / 10 % 10 := by omega
      have e3 : us % 100 % 10 = us % 10 := by omega
      rw [if_pos h100]
      simp only []
      rw [ih _ _ hlt hf, hk.1, hk.2, decimal_step (show 10 ≤ us by omega),
        decimal_step (show 10 ≤ us / 10 by omega), e1, e2, e3]
      simp
    · have hm : us % 100 = us := Nat.mod_eq_of_lt (by omega)
      rw [hm] at hk
      rw [if_neg h100]
      simp only []
      by_cases h10 : us ≥ 10
      · have hd : us / 10 < 10 := by omega
        rw [if_pos h10, hk.1, hk.2, decimal_step h10, decimal_of_lt_ten hd]
        simp
      · rw [if_neg h10, hk.2, decimal_of_lt_ten (by omega)]
        have : us % 10 = us := by omega
        simp [this]

/-- `FormatInt(i, 10)` is the canonical decimal rendering of `i`, for every
`int64`. -/
theorem FormatInt_eq_decimalInt {i : Int} (h : InInt64 i) : FormatInt i = decimalInt i := by
  unfold InInt64 at h
  unfold FormatInt
  by_cases hs : 0 ≤ i ∧ i < 100
  · rw [if_pos hs, decimalInt_of_nonneg hs.1]
    exact small_eq_decimal i.toNat (by omega)
  · rw [if_neg hs]
    unfold formatBits
    by_cases hneg : i < 0
    · have e : (2 ^ 64 - (i % 2 ^ 64).toNat) % 2 ^ 64 = i.natAbs := by omega
      have hb : i.natAbs < 100 ^ 11 := by
        have : (100 : Nat) ^ 11 = 10000000000000000000000 := by norm_num
        omega
      simp only [hneg, decide_True, if_true, e]
      rw [formatBitsLoop_eq_decimal 11 _ _ hb (by decide)]
      simp [decimalInt, hneg]
    · have e : (i % 2 ^ 64).toNat = i.toNat := by omega
      have hb : i.toNat < 100 ^ 11 := by
        have : (100 : Nat) ^ 11 = 10000000000000000000000 := by norm_num
        omega
      simp only [hneg, decide_False, e, Bool.false_eq_true, if_false]
      rw [formatBitsLoop_eq_decimal 11 _ _ hb (by decide), decimalInt_of_nonneg (by omega)]
      simp

/-- C9. For a range with `End` present (value `E`), any `Start` value `S`
and any file length `L` (all `int64`), `ToHeaderValue` returns exactly
`bytes ` followed by the decimal rendering of `S`, a `-`, that of `E`, a `/`
and that of `L`; no relation between `S`, `E` and `L` is required. -/
theorem ToHeaderValue_closed_range (r : ByteRange) (E L : Int) (hE : r.End = some E)
    (hS : InInt64 r.Start) (hEr : InInt64 E) (hL : InInt64 L) :
    r.ToHeaderValue L =
      lit "bytes " ++ decimalInt r.Start ++ lit "-" ++ decimalInt E ++ lit "/" ++ decimalInt L := by
  unfold ByteRange.ToHeaderValue
  simp only [hE]
  rw [FormatInt_eq_decimalInt hS, FormatInt_eq_decimalInt hEr, FormatInt_eq_decimalInt hL]

/-- C9, on `Start = 0`, `End = 499` and file length `1000`: the header value
is `bytes 0-499/1000`. -/
theorem ToHeaderValue_closed_range_witness :
    (ByteRange.mk 0 (some 499) []).ToHeaderValue 1000 = lit "bytes 0-499/1000" := by
  have h := ToHeaderValue_closed_range (ByteRange.mk 0 (some 499) []) 499 1000 rfl
    (by decide) (by decide) (by decide)
  have e : lit "bytes " ++ decimalInt (ByteRange.mk 0 (some 499) []).Start ++ lit "-" ++
      decimalInt 499 ++ lit "/" ++ decimalInt 1000 = lit "bytes 0-499/1000" := by decide
  rw [e] at h
  exact h

/-- C10. For every range and every file length, `ToHeaderValue` returns the
empty string if and only if `End` is absent. -/
theorem ToHeaderValue_eq_nil_iff (r : ByteRange) (L : Int) :
    r.ToHeaderValue L = [] ↔ r.End = none := by
  unfold ByteRange.ToHeaderValue
  cases hE : r.End with
  | none => simp
  | some e =>
    have hne : lit "bytes " ≠ [] := by decide
    simp [hne]

/-! ## The parts of the split -/

theorem dash_not_mem_beforeDash (r : GoString) : (45 : Nat) ∉ beforeDash r := by
  intro h
  have := List.mem_takeWhile_imp h
  simp at this

theorem beforeDash_cons_dash (cs : GoString) : beforeDash (45 :: cs) = [] := by
  simp [beforeDash]

theorem beforeDash_cons_ne {c : Nat} (cs : GoString) (h : c ≠ 45) :
    beforeDash (c :: cs) = c :: beforeDash cs := by
  simp [beforeDash, List.takeWhile_cons, h]

theorem afterDash_cons_dash (cs : GoString) : afterDash (45 :: cs) = some cs := by
  simp [afterDash]

theorem afterDash_cons_ne {c : Nat} (cs : GoString) (h : c ≠ 45) :
    afterDash (c :: cs) = afterDash cs := by
  simp [afterDash, List.dropWhile_cons, h]

/-- A string without a `-` has nothing after the dash and is its own first
part. -/
theorem afterDash_eq_none {r : GoString} (h : afterDash r = none) :
    (45 : Nat) ∉ r ∧ beforeDash r = r := by
  induction r with
  | nil => simp [beforeDash]
  | cons c cs ih =>
    by_cases hc : c = 45
    · subst hc
      rw [afterDash_cons_dash] at h
      exact absurd h (by simp)
    · rw [afterDash_cons_ne cs hc] at h
      obtain ⟨h3, h4⟩ := ih h
      constructor
      · intro hm
        rcases List.mem_cons.mp hm with e | e
        · exact hc e.symm
        · exact h3 e
      · rw [beforeDash_cons_ne cs hc, h4]

/-- A string with a `-` is its first part, the `-`, and the text after it. -/
theorem afterDash_eq_some {r t : GoString} (h : afterDash r = some t) :
    r = beforeDash r ++ 45 :: t := by
  induction r with
  | nil => simp [afterDash] at h
  | cons c cs ih =>
    by_cases hc : c = 45
    · subst hc
      rw [afterDash_cons_dash] at h
      rw [beforeDash_cons_dash, Option.some.inj h]
      rfl
    · rw [afterDash_cons_ne cs hc] at h
      rw [beforeDash_cons_ne cs hc, List.cons_append, ← ih h]

/-- The parts that `strings.Split(r, "-")` returns: the text before the first
`-`, then the parts of the text after it. -/
theorem Split_eq_parts (r : GoString) :
    Split r 45 = beforeDash r ::
      (match afterDash r with
       | none => []
       | some t => Split t 45) := by
  cases h : afterDash r with
  | none =>
    obtain ⟨h1, h2⟩ := afterDash_eq_none h
    rw [h2, Split_of_not_mem h1]
  | some t =>
    have h1 := afterDash_eq_some h
    conv_lhs => rw [h1]
    rw [Split_append _ (dash_not_mem_beforeDash r)]

/-- The split always has a first part, and a second one exactly when the
string has a `-`: that second part is the text up to the next `-`. -/
theorem Split_eq_two_parts (r : GoString) :
    (afterDash r = none ∧ Split r 45 = [beforeDash r]) ∨
    (∃ t ps, afterDash r = some t ∧ Split r 45 = beforeDash r :: beforeDash t :: ps) := by
  cases h : afterDash r with
  | none =>
    left
    refine ⟨rfl, ?_⟩
    rw [Split_eq_parts, h]
  | some t =>
    right
    refine ⟨t, (match afterDash t with
      | none => []
      | some u => Split u 45), rfl, ?_⟩
    rw [Split_eq_parts r, h]
    simp only []
    rw [Split_eq_parts t]

/-! ## What `ParseInt` returns for a part -/

/-- The three outcomes of `ParseInt` on a string without a `-`: a syntax
error with value `0`, a range error with value `2^63 - 1`, or no error and a
value between `0` and `2^63 - 1`. -/
theorem ParseInt_of_no_dash {p : GoString} (h : (45 : Nat) ∉ p) :
    ((ParseInt p).2 = some NumError.ErrSyntax ∧ (ParseInt p).1 = 0) ∨
    ((ParseInt p).2 = some NumError.ErrRange ∧ (ParseInt p).1 = 2 ^ 63 - 1) ∨
    ((ParseInt p).2 = none ∧ 0 ≤ (ParseInt p).1 ∧ (ParseInt p).1 < 2 ^ 63) := by
  cases p with
  | nil => left; simp [ParseInt]
  | cons c rest =>
    have hc : ¬ c = 45 := fun e => h (by simp [e])
    unfold ParseInt
    simp only [hc, if_false]
    generalize (ParseUint (if c = 43 then rest else c :: rest)) = res
    obtain ⟨un, err⟩ := res
    simp only [ite_self, Bool.not_false, Bool.true_and, Bool.false_and, Bool.false_eq_true,
      if_false, decide_eq_true_eq]
    by_cases he : err = some NumError.ErrSyntax
    · left
      rw [if_pos he]
      exact ⟨he, rfl⟩
    · rw [if_neg he]
      by_cases hu : un ≥ 2 ^ 63
      · right; left
        have hw : wrapInt64 (((2 ^ 63 : Nat) : Int) - 1) = 2 ^ 63 - 1 := by decide
        rw [if_pos hu, hw]
        exact ⟨rfl, rfl⟩
      · right; right
        have hw : wrapInt64 (un : Int) = un := wrapInt64_of_inInt64 (by unfold InInt64; omega)
        rw [if_neg hu, hw]
        refine ⟨rfl, ?_, ?_⟩
        · show (0 : Int) ≤ (un : Int)
          omega
        · show (un : Int) < 2 ^ 63
          omega

/-! ## `CreateByteRange` in terms of the text around the dashes -/

/-- `Start` is what `ParseInt` returns for the text before the first `-`. -/
theorem CreateByteRange_Start_eq (s : GoString) :
    (CreateByteRange s).Start = (ParseInt (beforeDash (TrimPrefix s (lit "bytes=")))).1 :=
  CreateByteRange_Start (Split_eq_parts _)

/-- `End` is absent without a `-` and when nothing stands between the first
`-` and the next; otherwise it is what `ParseInt` returns for that text. -/
theorem CreateByteRange_End_eq (s : GoString) :
    (CreateByteRange s).End =
      match afterDash (TrimPrefix s (lit "bytes=")) with
      | none => none
      | some t => if beforeDash t = [] then none else some (ParseInt (beforeDash t)).1 := by
  rcases Split_eq_two_parts (TrimPrefix s (lit "bytes=")) with ⟨h1, h2⟩ | ⟨t, ps, h1, h2⟩
  · rw [CreateByteRange_End_single h2, h1]
  · rw [CreateByteRange_End_cons h2, h1]

/-- The value `ParseInt` returns together with an error, for a string
without a `-`. -/
theorem ParseInt_value_of_error {p : GoString} {err : NumError} (hp : (45 : Nat) ∉ p)
    (h : (ParseInt p).2 = some err) :
    (ParseInt p).1 = valueOnError err := by
  rcases ParseInt_of_no_dash hp with ⟨h1, h2⟩ | ⟨h1, h2⟩ | ⟨h1, _⟩
  · rw [h1] at h
    cases Option.some.inj h
    exact h2
  · rw [h1] at h
    cases Option.some.inj h
    exact h2
  · rw [h1] at h
    cases h

/-- A string begins with `pre` exactly when Go `HasPrefix` says so. -/
theorem HasPrefix_eq_true {s pre : GoString} (h : HasPrefix s pre = true) :
    s = pre ++ s.drop pre.length := by
  simp only [HasPrefix, Bool.and_eq_true, decide_eq_true_eq] at h
  conv_lhs => rw [← List.take_append_drop pre.length s, h.2]

theorem TrimPrefix_of_no_match {s pre : GoString} (h : ∀ t, s ≠ pre ++ t) :
    TrimPrefix s pre = s := by
  unfold TrimPrefix
  cases hp : HasPrefix s pre with
  | false => simp
  | true => exact absurd (HasPrefix_eq_true hp) (h _)

/-! ## Parsing: errors, the missing prefix, strings without a dash -/

set_option maxRecDepth 8000 in
/-- C11, as stated, fails: the first part of `bytes=99999999999999999999-` is
not representable, `ParseInt` reports a range error, and `Start` is
`2^63 - 1`, not `0`. -/
theorem CreateByteRange_Start_range_error :
    (ParseInt (beforeDash (TrimPrefix (lit "bytes=99999999999999999999-") (lit "bytes=")))).2
      = some NumError.ErrRange ∧
    (CreateByteRange (lit "bytes=99999999999999999999-")).Start = 2 ^ 63 - 1 ∧
    (CreateByteRange (lit "bytes=99999999999999999999-")).Start ≠ 0 := by
  refine ⟨by decide, by decide, by decide⟩

/-- C11, amended. When the parse of the first part (the text of the stripped
remainder before its first `-`) reports an error, `Start` is `0` for a syntax
error (empty or non-numeric text) and `2^63 - 1` for a range error (digits of
a number that is not representable). -/
theorem CreateByteRange_Start_of_error (s : GoString) (err : NumError)
    (h : (ParseInt (beforeDash (TrimPrefix s (lit "bytes=")))).2 = some err) :
    (CreateByteRange s).Start = valueOnError err := by
  rw [CreateByteRange_Start_eq]
  exact ParseInt_value_of_error (dash_not_mem_beforeDash _) h

/-- C11, amended, on `bytes=abc-5`: a syntax error in the first part and
`Start = 0`. -/
theorem CreateByteRange_Start_of_error_witness :
    (CreateByteRange (lit "bytes=abc-5")).Start = 0 :=
  CreateByteRange_Start_of_error (lit "bytes=abc-5") NumError.ErrSyntax (by decide)

/-- C12, as stated, fails: the second part of `bytes=10-99999999999999999999`
is not empty and its parse reports a range error, and `End` is present with
value `2^63 - 1`, not `0`. -/
theorem CreateByteRange_End_range_error :
    afterDash (TrimPrefix (lit "bytes=10-99999999999999999999") (lit "bytes="))
      = some (lit "99999999999999999999") ∧
    (ParseInt (lit "99999999999999999999")).2 = some NumError.ErrRange ∧
    (CreateByteRange (lit "bytes=10-99999999999999999999")).End = some (2 ^ 63 - 1) ∧
    (CreateByteRange (lit "bytes=10-99999999999999999999")).End ≠ some 0 := by
  refine ⟨by decide, by decide, by decide, by decide⟩

/-- C12, amended. When the second part (the text between the first `-` and
the next `-`, or the end of the string) is not empty and its parse reports an
error, `End` is present: with value `0` for a syntax error and `2^63 - 1` for
a range error. -/
theorem CreateByteRange_End_of_error (s t : GoString) (err : NumError)
    (ht : afterDash (TrimPrefix s (lit "bytes=")) = some t) (hne : beforeDash t ≠ [])
    (h : (ParseInt (beforeDash t)).2 = some err) :
    (CreateByteRange s).End = some (valueOnError err) := by
  rw [CreateByteRange_End_eq, ht]
  simp only [hne, if_false]
  rw [ParseInt_value_of_error (dash_not_mem_beforeDash _) h]

/-- C12, amended, on `bytes=10-abc`: `Start = 10` and `End` present with
value `0`. -/
theorem CreateByteRange_End_of_error_witness :
    (CreateByteRange (lit "bytes=10-abc")).Start = 10 ∧
    (CreateByteRange (lit "bytes=10-abc")).End = some 0 :=
  ⟨by decide,
    CreateByteRange_End_of_error (lit "bytes=10-abc") (lit "abc") NumError.ErrSyntax
      (by decide) (by decide) (by decide)⟩

/-- C13. For every string `s` that does not begin with `bytes=`, parsing `s`
and parsing `bytes=` followed by `s` give the same `Start` and the same
`End`. -/
theorem CreateByteRange_prefix_optional (s : GoString) (h : ∀ t, s ≠ lit "bytes=" ++ t) :
    (CreateByteRange s).Start = (CreateByteRange (lit "bytes=" ++ s)).Start ∧
    (CreateByteRange s).End = (CreateByteRange (lit "bytes=" ++ s)).End := by
  rw [CreateByteRange_Start_eq, CreateByteRange_Start_eq, CreateByteRange_End_eq,
    CreateByteRange_End_eq, TrimPrefix_append, TrimPrefix_of_no_match h]
  exact ⟨rfl, rfl⟩

/-- C13, on `0-10` and `bytes=0-10`: both give `Start = 0` and `End = 10`. -/
theorem CreateByteRange_prefix_optional_witness :
    ((CreateByteRange (lit "0-10")).Start = (CreateByteRange (lit "bytes=" ++ lit "0-10")).Start ∧
      (CreateByteRange (lit "0-10")).End = (CreateByteRange (lit "bytes=" ++ lit "0-10")).End) ∧
    (CreateByteRange (lit "0-10")).Start = 0 ∧ (CreateByteRange (lit "0-10")).End = some 10 :=
  ⟨CreateByteRange_prefix_optional (lit "0-10") (by
      intro t e
      have e2 : ([48, 45, 49, 48] : List Nat) = [98, 121, 116, 101, 115, 61] ++ t := e
      simp at e2),
    by decide, by decide⟩

theorem afterDash_of_not_mem {r : GoString} (h : (45 : Nat) ∉ r) : afterDash r = none := by
  cases ha : afterDash r with
  | none => rfl
  | some t =>
    have e := afterDash_eq_some ha
    exact absurd (by rw [e]; simp) h

/-- C14. For every header string whose remainder after stripping a leading
`bytes=` contains no `-`, `End` is absent; and when that remainder is empty,
as for the inputs `bytes=` and the empty string, `Start` is `0`. -/
theorem CreateByteRange_no_dash (s : GoString) (h : (45 : Nat) ∉ TrimPrefix s (lit "bytes=")) :
    (CreateByteRange s).End = none ∧
    (TrimPrefix s (lit "bytes=") = [] → (CreateByteRange s).Start = 0) := by
  constructor
  · rw [CreateByteRange_End_eq, afterDash_of_not_mem h]
  · intro he
    rw [CreateByteRange_Start_eq, he]
    rfl

/-- C14, on the inputs `bytes=` and the empty string: `Start = 0` and `End`
absent. -/
theorem CreateByteRange_no_dash_witness :
    ((CreateByteRange (lit "bytes=")).Start = 0 ∧ (CreateByteRange (lit "bytes=")).End = none) ∧
    ((CreateByteRange []).Start = 0 ∧ (CreateByteRange []).End = none) :=
  ⟨⟨(CreateByteRange_no_dash (lit "bytes=") (by decide)).2 (by decide),
      (CreateByteRange_no_dash (lit "bytes=") (by decide)).1⟩,
    ⟨(CreateByteRange_no_dash [] (by decide)).2 (by decide),
      (CreateByteRange_no_dash [] (by decide)).1⟩⟩

/-- The result of `CreateByteRange`, given the parts of the split. -/
theorem CreateByteRange_of_Split {s p0 : GoString} {ps : List GoString}
    (h : Split (TrimPrefix s (lit "bytes=")) 45 = p0 :: ps) :
    CreateByteRange s =
      { Start := (ParseInt p0).1,
        End := ps.head?.bind (fun p1 => if p1 = [] then none else some (ParseInt p1).1),
        RawString := s } := by
  unfold CreateByteRange
  dsimp only
  generalize Split (TrimPrefix s (lit "bytes=")) 45 = e at h
  subst h
  cases ps with
  | nil => simp
  | cons p1 ps =>
    by_cases h1 : p1 = []
    · simp [h1]
    · simp [h1]

/-- C15. `CreateByteRange` never fails: for every input string the split of
the remainder has a first part, so `e[0]` is in bounds, and the function
returns the range built from the first part and, when there is one, the
second part, with the input as `RawString`. -/
theorem CreateByteRange_total (s : GoString) :
    0 < (Split (TrimPrefix s (lit "bytes=")) 45).length ∧
    ∃ p0 ps, Split (TrimPrefix s (lit "bytes=")) 45 = p0 :: ps ∧
      CreateByteRange s =
        { Start := (ParseInt p0).1,
          End := ps.head?.bind (fun p1 => if p1 = [] then none else some (ParseInt p1).1),
          RawString := s } := by
  have hs := Split_eq_parts (TrimPrefix s (lit "bytes="))
  exact ⟨by rw [hs]; simp, _, _, hs, CreateByteRange_of_Split hs⟩

/-- C16. For every input string, `Start` is not negative, and `End`, when
present, is not negative. -/
theorem CreateByteRange_nonneg (s : GoString) :
    0 ≤ (CreateByteRange s).Start ∧ ∀ e, (CreateByteRange s).End = some e → 0 ≤ e := by
  have key : ∀ p : GoString, (45 : Nat) ∉ p → 0 ≤ (ParseInt p).1 := by
    intro p hp
    rcases ParseInt_of_no_dash hp with ⟨_, h⟩ | ⟨_, h⟩ | ⟨_, h, _⟩
    · rw [h]
    · rw [h]; decide
    · exact h
  constructor
  · rw [CreateByteRange_Start_eq]
    exact key _ (dash_not_mem_beforeDash _)
  · intro e he
    rw [CreateByteRange_End_eq] at he
    cases ha : afterDash (TrimPrefix s (lit "bytes=")) with
    | none => rw [ha] at he; cases he
    | some t =>
      rw [ha] at he
      by_cases hb : beforeDash t = []
      · simp [hb] at he
      · simp only [hb, if_false] at he
        rw [← Option.some.inj he]
        exact key _ (dash_not_mem_beforeDash _)

/-- C17. For every input string `s`, the `RawString` of the result is `s`. -/
theorem CreateByteRange_RawString (s : GoString) : (CreateByteRange s).RawString = s := by
  rw [CreateByteRange_of_Split (Split_eq_parts (TrimPrefix s (lit "bytes=")))]

/-! ## The split cuts at every dash -/

set_option maxRecDepth 8000 in
/-- C18, as stated, fails. On `bytes=1-2-3` the reference parser that cuts at
the first `-` only reads part 2 as `2-3`, which does not parse, and gives
`End = 0`, while `CreateByteRange` gives `End = 2`; on `bytes=1--` the
reference gives `End` present and `CreateByteRange` gives it absent; on
`bytes=0-99999999999999999999` the parse of part 2 fails, the reference gives
`End = 0` and `CreateByteRange` gives `End = 2^63 - 1`. -/
theorem CreateByteRange_ne_referenceFirstDash :
    referenceFirstDash (lit "bytes=0-99999999999999999999") = (0, some 0) ∧
    ((CreateByteRange (lit "bytes=0-99999999999999999999")).Start,
      (CreateByteRange (lit "bytes=0-99999999999999999999")).End) = (0, some (2 ^ 63 - 1)) ∧
    referenceFirstDash (lit "bytes=1-2-3") = (1, some 0) ∧
    ((CreateByteRange (lit "bytes=1-2-3")).Start, (CreateByteRange (lit "bytes=1-2-3")).End)
      = (1, some 2) ∧
    referenceFirstDash (lit "bytes=1--") = (1, some 0) ∧
    ((CreateByteRange (lit "bytes=1--")).Start, (CreateByteRange (lit "bytes=1--")).End)
      = (1, none) ∧
    ((CreateByteRange (lit "bytes=1-2-3")).Start, (CreateByteRange (lit "bytes=1-2-3")).End)
      ≠ referenceFirstDash (lit "bytes=1-2-3") := by
  refine ⟨by decide, by decide, by decide, by decide, by decide, by decide, by decide⟩

/-- C18, amended. `CreateByteRange` cuts the stripped remainder at every `-`
and uses the first two parts: for every input string, `Start` and `End` are
those of the reference parser that takes part 1 = the text before the first
`-` and part 2 = the text between the first `-` and the next one (or the end
of the string), with `End` present exactly when a `-` occurs and part 2 is
not empty, the numbers being the values `ParseInt` returns. -/
theorem CreateByteRange_eq_referenceEveryDash (s : GoString) :
    ((CreateByteRange s).Start, (CreateByteRange s).End) = referenceEveryDash s := by
  unfold referenceEveryDash
  rw [CreateByteRange_Start_eq, CreateByteRange_End_eq]

/-! ## Suffix ranges -/

theorem lit_bytes_dash : lit "bytes=-" = lit "bytes=" ++ [45] := by decide

/-- C19. For every integer `N` between `0` and `2^63 - 1`, parsing `bytes=-`
followed by the decimal digits of `N` gives `Start = 0` and `End` present
with value `N`; hence for every buffer longer than `N`, `Apply` returns the
first `N + 1` bytes of the buffer. -/
theorem CreateByteRange_suffix_range (N : Int) (h0 : 0 ≤ N) (hN : N ≤ 2 ^ 63 - 1) :
    (CreateByteRange (lit "bytes=-" ++ decimalInt N)).Start = 0 ∧
    (CreateByteRange (lit "bytes=-" ++ decimalInt N)).End = some N ∧
    ∀ data : List Nat, N < (data.length : Int) → (data.length : Int) < 2 ^ 63 →
      (CreateByteRange (lit "bytes=-" ++ decimalInt N)).Apply data
        = some (data.take (N.toNat + 1)) := by
  have hsplit : Split (TrimPrefix (lit "bytes=-" ++ decimalInt N) (lit "bytes=")) 45
      = [[], decimal N.toNat] := by
    rw [decimalInt_of_nonneg h0, lit_bytes_dash, List.append_assoc, TrimPrefix_append,
      List.singleton_append]
    have := @Split_append 45 [] (decimal N.toNat) (List.not_mem_nil _)
    rw [List.nil_append] at this
    rw [this, Split_of_not_mem (dash_not_mem_decimal _)]
  have hs : (CreateByteRange (lit "bytes=-" ++ decimalInt N)).Start = 0 := by
    rw [CreateByteRange_Start hsplit]
    rfl
  have he : (CreateByteRange (lit "bytes=-" ++ decimalInt N)).End = some N := by
    rw [CreateByteRange_End_cons hsplit, if_neg (decimal_ne_nil _), ParseInt_decimal (by omega),
      Int.toNat_of_nonneg h0]
  refine ⟨hs, he, ?_⟩
  intro data hlt hlen
  have e : (N + 1).toNat = N.toNat + 1 := by omega
  rw [Apply_closed he (by rw [hs]) (by rw [hs]; omega) (by omega) hlen, hs, e]
  simp [subSlice]

/-- C19, on `bytes=-2` and a buffer of five bytes: `Start = 0`, `End = 2`, and
`Apply` returns the first three bytes, not the last two. -/
theorem CreateByteRange_suffix_range_witness :
    (CreateByteRange (lit "bytes=-2")).Start = 0 ∧
    (CreateByteRange (lit "bytes=-2")).End = some 2 ∧
    (CreateByteRange (lit "bytes=-2")).Apply [10, 11, 12, 13, 14] = some [10, 11, 12] := by
  have h := CreateByteRange_suffix_range 2 (by decide) (by decide)
  have e : lit "bytes=-" ++ decimalInt 2 = lit "bytes=-2" := by decide
  rw [e] at h
  exact ⟨h.1, h.2.1, h.2.2 [10, 11, 12, 13, 14] (by decide) (by decide)⟩

/-! ## What `Apply` can return -/

theorem slice_eq_some {a out : List Nat} {lo hi : Int} (h : slice a lo hi = some out) :
    0 ≤ lo ∧ lo ≤ hi ∧ hi ≤ (a.length : Int) ∧ out = subSlice a lo.toNat hi.toNat := by
  unfold slice at h
  by_cases hc : 0 ≤ lo ∧ lo ≤ hi ∧ hi ≤ (a.length : Int)
  · rw [if_pos hc] at h
    have e : (hi - lo).toNat = hi.toNat - lo.toNat := by omega
    refine ⟨hc.1, hc.2.1, hc.2.2, ?_⟩
    rw [← Option.some.inj h, subSlice, e]
  · rw [if_neg hc] at h
    cases h

/-- C20. Whenever `Apply` returns, the result is the segment of `data` that
starts at offset `Start`: its length `n` satisfies `n <= len(data) - Start`,
its bytes are those of `data` at the offsets `Start` to `Start + n - 1`, and
when `End` is present `n <= End - Start + 1`. -/
theorem Apply_result (r : ByteRange) (data out : List Nat) (h : r.Apply data = some out)
    (hlen : (data.length : Int) < 2 ^ 63) (hE : ∀ e, r.End = some e → InInt64 e) :
    0 ≤ r.Start ∧
    out = subSlice data r.Start.toNat (r.Start.toNat + out.length) ∧
    (out.length : Int) ≤ (data.length : Int) - r.Start ∧
    (∀ i : Nat, i < out.length → out[i]? = data[r.Start.toNat + i]?) ∧
    ∀ e, r.End = some e → (out.length : Int) ≤ e - r.Start + 1 := by
  have main : ∃ hi : Int, slice data r.Start hi = some out ∧
      ∀ e, r.End = some e → hi ≤ e + 1 := by
    unfold ByteRange.Apply at h
    cases hEnd : r.End with
    | none =>
      rw [hEnd] at h
      exact ⟨_, h, by intro e he; cases he⟩
    | some e =>
      rw [hEnd] at h
      have hi := hE e hEnd
      have hl : wrapInt64 (data.length : Int) = data.length :=
        wrapInt64_of_inInt64 (by unfold InInt64; omega)
      have hle : wrapInt64 (e + 1) ≤ e + 1 := by
        unfold InInt64 at hi
        unfold wrapInt64
        omega
      simp only [wrapInt64_of_inInt64 (wrapInt64_inInt64 (e + 1)), hl] at h
      refine ⟨_, h, ?_⟩
      intro e2 he2
      cases Option.some.inj he2
      by_cases hgt : wrapInt64 (e + 1) > (data.length : Int)
      · rw [if_pos hgt]; omega
      · rw [if_neg hgt]; exact hle
  obtain ⟨hi, hs, hb⟩ := main
  obtain ⟨h0, h1, h2, ho⟩ := slice_eq_some hs
  have hlen2 : out.length = hi.toNat - r.Start.toNat := by
    rw [ho, subSlice_length (by omega)]
  refine ⟨h0, ?_, ?_, ?_, ?_⟩
  · have e : r.Start.toNat + out.length = hi.toNat := by omega
    rw [e]
    exact ho
  · omega
  · intro i hi2
    rw [ho]
    exact subSlice_getElem? i (by omega)
  · intro e he
    have := hb e he
    omega

/-- C20, on the range `Start = 1`, `End = 5` and a buffer of three bytes: the
clamped result `[2, 3]` starts at offset 1 and has `2 <= 3 - 1` bytes. -/
theorem Apply_result_witness :
    (0 : Int) ≤ 1 ∧
    ([2, 3] : List Nat) = subSlice [1, 2, 3] 1 (1 + 2) ∧
    ((2 : Nat) : Int) ≤ ((3 : Nat) : Int) - 1 ∧
    (∀ i : Nat, i < 2 → ([2, 3] : List Nat)[i]? = ([1, 2, 3] : List Nat)[1 + i]?) ∧
    ∀ e, (some 5 : Option Int) = some e → ((2 : Nat) : Int) ≤ e - 1 + 1 :=
  Apply_result (ByteRange.mk 1 (some 5) []) [1, 2, 3] [2, 3] (by decide) (by decide)
    (by intro e he; cases Option.some.inj he; decide)

end ByteRangeGo
